import Mathlib

/-!
Verification of the traversal core of `src/folder_selector.rs`.

The filesystem is modelled as an inductive tree `FS`.  A directory node
carries a `readable` flag (whether `fs::read_dir` succeeds on it) and a list
of entries `(name, statOk, subtree)`, where `statOk` models whether metadata
for that entry can be obtained (`fs::symlink_metadata`, and the
`DirEntry::file_type()` fast hint, which reads the same symlink-aware type
information).  A symlink node records its resolved target (`none` for a
broken link): the symlink-aware metadata used for classification never
follows the link, but `fs::read_dir` resolves a final symlink to its
target, so `dir_has_children`, `read_children` and the frame reads of
`collect_paths` all go through `read_dir_entries`, which follows the chain
of targets.  The model is a race-free snapshot: per-entry iterator errors
of `read_dir` are not modelled separately, and a path that exists can be
stat-ed.

Machine integers (`u32` depth) are modelled as `Nat`: the code only ever
increments the depth counter by one per filesystem level, so overflow is
unreachable for any filesystem the model quantifies over.
-/

namespace FolderSelector

/-- Model of the filesystem subtree reachable from one path.  Directory
entries are `(name, statOk, subtree)` triples; a symlink carries the object
its chain of targets resolves to (`none` when the link is broken), which is
reached only by the operations built on `fs::read_dir`. -/
inductive FS where
  | file : FS
  | symlink (target : Option FS) : FS
  | dir (readable : Bool) (entries : List (String × Bool × FS)) : FS

/-- Model of `folder_formatter::file_tree::FileType` (the file of that module
is not under `src/`; the three constructors `Directory`, `Link`, `File` are
taken from their uses in `folder_selector.rs` and from the closed three-value
`FileKind` classification of the spec). -/
inductive FT where
  | Directory : FT
  | Link : FT
  | File : FT
deriving DecidableEq, Repr

/-- Model of `std::io::Error`: the crafted not-found error with its message,
or any other I/O error (whose details the code never inspects). -/
inductive IOError where
  | notFound (msg : String) : IOError
  | otherError : IOError
deriving DecidableEq, Repr

/-- Model of the `FileNode` struct of `folder_selector.rs`. -/
inductive FileNode where
  | mk (name : String) (path : String) (is_dir : Bool)
      (children : Option (List FileNode)) (has_more : Option Bool) : FileNode

def FileNode.name : FileNode → String
  | FileNode.mk n _ _ _ _ => n

def FileNode.path : FileNode → String
  | FileNode.mk _ p _ _ _ => p

def FileNode.is_dir : FileNode → Bool
  | FileNode.mk _ _ d _ _ => d

def FileNode.children : FileNode → Option (List FileNode)
  | FileNode.mk _ _ _ c _ => c

def FileNode.has_more : FileNode → Option Bool
  | FileNode.mk _ _ _ _ h => h

/-- `meta.file_type().is_dir()` on symlink-aware metadata. -/
def is_dir_fs : FS → Bool
  | FS.dir _ _ => true
  | _ => false

/-- `file_type.is_symlink()` on symlink-aware metadata. -/
def is_symlink_fs : FS → Bool
  | FS.symlink _ => true
  | _ => false

/-- Symlink resolution as the operating system performs it for
`fs::read_dir`: follow the chain of targets to the final non-link object,
`none` when the chain is broken. -/
def resolve : FS → Option FS
  | FS.symlink (some t) => resolve t
  | FS.symlink none => none
  | fs => some fs

/-- `fs::read_dir(p)`: resolves a final symlink, succeeds with the entry
list exactly when the resolved object is a readable directory. -/
def read_dir_entries (fs : FS) : Option (List (String × Bool × FS)) :=
  match resolve fs with
  | some (FS.dir true es) => some es
  | _ => none

/-- `dir_has_children`: `fs::read_dir(p)` followed by `rd.next().is_some()`;
`false` when the directory cannot be opened (or the resolved path is not a
directory). -/
def dir_has_children (fs : FS) : Bool :=
  match read_dir_entries fs with
  | some es => !es.isEmpty
  | none => false

/-- `p.file_name().and_then(|n| n.to_str()).unwrap_or("")`: the last
`/`-separated component of the path string. -/
def file_name (p : String) : String :=
  String.mk ((p.data.splitOn (Char.ofNat 47)).getLastD [])

/-- Rust `str::to_lowercase`, modelled characterwise. -/
def lower_str (s : String) : String :=
  String.mk (s.data.map Char.toLower)

/-- Lexicographic comparison of character lists: the model of Rust
`Ord::cmp` on strings (byte-lexicographic, which on valid UTF-8 agrees with
character-lexicographic order). -/
def chars_cmp : List Char → List Char → Ordering
  | [], [] => Ordering.eq
  | [], _ :: _ => Ordering.lt
  | _ :: _, [] => Ordering.gt
  | a :: as, b :: bs =>
      if a < b then Ordering.lt
      else if b < a then Ordering.gt
      else chars_cmp as bs

/-- Rust `String::cmp`. -/
def str_cmp (x y : String) : Ordering :=
  chars_cmp x.data y.data

/-- The comparator passed to `items.sort_by` in `read_children`:
directories first, then case-insensitively by name. -/
def cmp_nodes (a b : FileNode) : Ordering :=
  match a.is_dir, b.is_dir with
  | true, false => Ordering.lt
  | false, true => Ordering.gt
  | _, _ => str_cmp (lower_str a.name) (lower_str b.name)

/-- The non-strict order induced by `cmp_nodes`, used to model the stable
sort `Vec::sort_by`. -/
def node_le (a b : FileNode) : Prop := cmp_nodes a b ≠ Ordering.gt

instance : DecidableRel node_le := fun a b => by
  unfold node_le; infer_instance

/-- `map_file_type` of `folder_selector.rs`; in the model the filesystem node
itself stands for its symlink-aware `fs::FileType`. -/
def map_file_type (fs : FS) : FT :=
  if is_dir_fs fs then FT.Directory
  else if is_symlink_fs fs then FT.Link
  else FT.File

/-- The push condition of `collect_paths`:
`max_depth.map_or(true, |m| depth + 1 <= m)`. -/
def depth_permits (depth : Nat) (max_depth : Option Nat) : Bool :=
  match max_depth with
  | none => true
  | some m => decide (depth + 1 ≤ m)

mutual

/-- `build_node` of `folder_selector.rs`.  `p` is the path, `statOk` whether
`fs::symlink_metadata(p)` succeeds (the `?` propagates its error), `fs` the
filesystem object at `p`.  The body of `read_children` (empty list when
`fs::read_dir` fails, otherwise the sorted per-entry builds) is inlined at
its unique call site so that the recursion is structural on `fs`; the
standalone `read_children` below is proved equal to the inlined expression
by `build_node_dir_eq`, recovering the exact call shape of the source. -/
def build_node (p : String) (statOk : Bool) (fs : FS) (depth : Nat)
    (max_depth : Option Nat) : Except IOError FileNode :=
  if statOk then
    match fs with
    | FS.dir readable es =>
      match max_depth with
      | some mx =>
        if depth ≥ mx then
          Except.ok (FileNode.mk (file_name p) p true none
            (some (dir_has_children (FS.dir readable es))))
        else
          Except.ok (FileNode.mk (file_name p) p true
            (some (if readable then
                List.insertionSort node_le (build_items p es (depth + 1) max_depth)
              else []))
            (some false))
      | none =>
        Except.ok (FileNode.mk (file_name p) p true
          (some (if readable then
              List.insertionSort node_le (build_items p es (depth + 1) max_depth)
            else []))
          (some false))
    | _ =>
      Except.ok (FileNode.mk (file_name p) p false none (some false))
  else
    Except.error IOError.otherError

/-- The entry loop of `read_children`: `entry.path()` is `dir` joined with
the entry name; a failing `build_node` is skipped (`Err(_) => continue`). -/
def build_items (dir : String) (es : List (String × Bool × FS)) (depth : Nat)
    (max_depth : Option Nat) : List FileNode :=
  match es with
  | [] => []
  | (n, ok, sub) :: rest =>
      match build_node (dir ++ "/" ++ n) ok sub depth max_depth with
      | Except.ok node => node :: build_items dir rest depth max_depth
      | Except.error _ => build_items dir rest depth max_depth

end

/-- `read_children` of `folder_selector.rs`: empty list when `fs::read_dir`
fails (an unreadable directory, or a path that is not a directory),
per-entry `build_node` with failing entries skipped, then the stable
directory-first case-insensitive sort.  It never returns an error. -/
def read_children (dir : String) (fs : FS) (depth : Nat)
    (max_depth : Option Nat) : Except IOError (List FileNode) :=
  match read_dir_entries fs with
  | some es =>
      Except.ok (List.insertionSort node_le (build_items dir es depth max_depth))
  | none => Except.ok []

/-- `read_directory` of `folder_selector.rs`.  `root = none` models
`!root.exists()`; `root = some fs` models an existing root resolving to the
filesystem object `fs` (in the race-free snapshot an existing root can be
stat-ed, so `build_node` receives `statOk = true`). -/
def read_directory (path : String) (root : Option FS) (max_depth : Option Nat) :
    Except IOError FileNode :=
  match root with
  | none => Except.error (IOError.notFound ("Path not found: " ++ path))
  | some fs => build_node path true fs 0 max_depth

/-- The per-entry emissions of one iteration of the `collect_paths` loop over
a readable directory: entries whose type can be obtained (fast hint or
fallback stat) yield a `(path string, mapped kind)` pair, the others are
skipped entirely. -/
def emit_entries (dir : String) (es : List (String × Bool × FS)) :
    List (String × FT) :=
  es.filterMap (fun e =>
    if e.2.1 then some (dir ++ "/" ++ e.1, map_file_type e.2.2) else none)

/-- The frames pushed by one iteration of the `collect_paths` loop: entries
mapped to `Directory` whose depth passes `depth_permits`, in discovery
order. -/
def push_frames (dir : String) (es : List (String × Bool × FS)) (depth : Nat)
    (max_depth : Option Nat) : List (String × Nat × FS) :=
  es.filterMap (fun e =>
    if e.2.1 ∧ map_file_type e.2.2 = FT.Directory ∧
        depth_permits depth max_depth = true then
      some (dir ++ "/" ++ e.1, depth + 1, e.2.2)
    else none)

mutual

/-- A computable size of a filesystem tree, the termination measure of the
`collect_paths` loop. -/
def fs_weight : FS → Nat
  | FS.file => 1
  | FS.symlink none => 1
  | FS.symlink (some t) => 1 + fs_weight t
  | FS.dir _ es => 1 + entries_weight es

def entries_weight : List (String × Bool × FS) → Nat
  | [] => 0
  | (_, _, sub) :: rest => 1 + fs_weight sub + entries_weight rest

end

/-- Sum of the weights of the filesystem objects on the work stack; the
termination measure of the `collect_paths` loop. -/
def stack_size (st : List (String × Nat × FS)) : Nat :=
  (st.map (fun f => fs_weight f.2.2)).sum

/-- The `while let Some(..) = stack.pop()` loop of `collect_paths`.  The head
of the list is the top of the stack; frames pushed while scanning a directory
therefore appear reversed in front of the remaining stack.  Because
`fs::read_dir` follows a final symlink, a popped frame holding a live
symlink is re-processed at the link target (same path string, same depth) —
one resolution step per iteration; the frame is dropped when `read_dir`
fails (a file, a broken link, an unreadable directory). -/
def collect_go (max_depth : Option Nat) :
    List (String × Nat × FS) → List (String × FT) → List (String × FT)
  | [], out => out
  | (dir, depth, fs) :: rest, out =>
      match fs with
      | FS.dir true es =>
          collect_go max_depth
            ((push_frames dir es depth max_depth).reverse ++ rest)
            (out ++ emit_entries dir es)
      | FS.symlink (some t) =>
          collect_go max_depth ((dir, depth, t) :: rest) out
      | _ => collect_go max_depth rest out
termination_by st _ => stack_size st
decreasing_by
  · have key : ∀ es2 : List (String × Bool × FS),
        stack_size (push_frames dir es2 depth max_depth) ≤ entries_weight es2 := by
      intro es2
      induction es2 with
      | nil => simp [push_frames, stack_size]
      | cons e2 rest2 ih2 =>
          obtain ⟨n2, ok2, sub2⟩ := e2
          by_cases hcond : (ok2 = true ∧ map_file_type sub2 = FT.Directory ∧
              depth_permits depth max_depth = true)
          · have hstep : push_frames dir ((n2, ok2, sub2) :: rest2) depth
                  max_depth =
                (dir ++ "/" ++ n2, depth + 1, sub2) ::
                  push_frames dir rest2 depth max_depth := by
              simp [push_frames, List.filterMap_cons, hcond]
            rw [hstep]
            simp only [stack_size, List.map_cons, List.sum_cons,
              entries_weight] at *
            omega
          · have hstep : push_frames dir ((n2, ok2, sub2) :: rest2) depth
                  max_depth =
                push_frames dir rest2 depth max_depth := by
              simp [push_frames, List.filterMap_cons, hcond]
            rw [hstep]
            simp only [stack_size, entries_weight] at *
            omega
    have h1 := key es
    simp only [stack_size, List.map_append, List.sum_append, List.map_cons,
      List.sum_cons, List.map_reverse, List.sum_reverse, fs_weight] at *
    omega
  · simp only [stack_size, List.map_cons, List.sum_cons, fs_weight]
    omega
  · have hpos : ∀ g : FS, 0 < fs_weight g := by
      intro g
      cases g with
      | file => simp [fs_weight]
      | symlink t => cases t <;> simp [fs_weight]
      | dir r es => simp [fs_weight]
    simp only [stack_size, List.map_cons, List.sum_cons]
    exact Nat.lt_add_of_pos_left (hpos _)

/-- `collect_paths` of `folder_selector.rs`: the work stack is seeded with
`(root, 0)` and the loop emits flat `(path string, kind)` pairs. -/
def collect_paths (root : String) (fs : FS) (max_depth : Option Nat) :
    List (String × FT) :=
  collect_go max_depth [(root, 0, fs)] []

/-- Modelled from the spec: `format_paths` of
`folder_formatter::json_formatting` is not under `src/`; the spec treats the
formatter as a black box consuming the root path string and the ordered
`(path, kind)` list and producing a formatted string.  No claim inspects its
output, so any total function of those two inputs is an admissible model. -/
def format_paths (root : String) (children : List (String × FT)) : String :=
  root ++ String.join (children.map (fun e => "\n" ++ e.1))

/-- `read_directory_fast` of `folder_selector.rs`. -/
def read_directory_fast (path : String) (root : Option FS)
    (max_depth : Option Nat) : Except IOError String :=
  match root with
  | none => Except.error (IOError.notFound ("Path not found: " ++ path))
  | some fs => Except.ok (format_paths path (collect_paths path fs max_depth))

/-! ### Specification layer -/

/-- The expansion condition of `build_node` at a directory node of depth
`depth`: the negation of the truncation test `depth >= mx`. -/
def expand_ok (depth : Nat) (max_depth : Option Nat) : Bool :=
  match max_depth with
  | none => true
  | some m => decide (depth < m)

mutual

/-- Denotation of one work-stack frame `(p, depth, fs)` of `collect_paths`:
the multiset of `(path, kind)` pairs the loop eventually emits on behalf of
this frame (the loop emits them in stack-pop order; membership is what the
claims are about). -/
def collect_spec (p : String) (fs : FS) (depth : Nat) (max_depth : Option Nat) :
    List (String × FT) :=
  match fs with
  | FS.dir true es => collect_spec_entries p es depth max_depth
  | FS.symlink (some t) => collect_spec p t depth max_depth
  | _ => []

def collect_spec_entries (p : String) (es : List (String × Bool × FS))
    (depth : Nat) (max_depth : Option Nat) : List (String × FT) :=
  match es with
  | [] => []
  | (n, ok, sub) :: rest =>
      (if ok then
        (p ++ "/" ++ n, map_file_type sub) ::
          (if map_file_type sub = FT.Directory ∧
              depth_permits depth max_depth = true then
            collect_spec (p ++ "/" ++ n) sub (depth + 1) max_depth
          else [])
       else []) ++ collect_spec_entries p rest depth max_depth

end

mutual

/-- The strict-descendant paths that `build_node` reaches from the node at
path `p`, depth `depth`: nothing below a non-directory, an unreadable
directory, or a directory truncated by the depth policy; otherwise each
entry whose metadata is obtainable contributes its own path and,
recursively, its descendants at `depth + 1`. -/
def fs_tree_paths (p : String) (fs : FS) (depth : Nat) (max_depth : Option Nat) :
    List String :=
  match fs with
  | FS.dir true es =>
      if expand_ok depth max_depth then
        fs_tree_paths_entries p es (depth + 1) max_depth
      else []
  | _ => []

def fs_tree_paths_entries (p : String) (es : List (String × Bool × FS))
    (depth : Nat) (max_depth : Option Nat) : List String :=
  match es with
  | [] => []
  | (n, ok, sub) :: rest =>
      (if ok then
        (p ++ "/" ++ n) :: fs_tree_paths (p ++ "/" ++ n) sub depth max_depth
       else []) ++ fs_tree_paths_entries p rest depth max_depth

end

mutual

/-- The paths of the strict descendants of a built `FileNode`. -/
def tree_desc_paths (n : FileNode) : List String :=
  match n with
  | FileNode.mk _ _ _ none _ => []
  | FileNode.mk _ _ _ (some cs) _ => tree_desc_list cs

def tree_desc_list : List FileNode → List String
  | [] => []
  | c :: rest => (c.path :: tree_desc_paths c) ++ tree_desc_list rest

end

/-- `InTree k c n`: the node `c` occurs at depth `k` inside the tree `n`. -/
inductive InTree : Nat → FileNode → FileNode → Prop where
  | here (n : FileNode) : InTree 0 n n
  | there {k : Nat} {c c0 n : FileNode} {cs : List FileNode} :
      n.children = some cs → c0 ∈ cs → InTree k c c0 → InTree (k + 1) c n

/-- `FSAt p fs k q sub`: starting from the filesystem object `fs` at path
`p`, following `k` directory entries leads to the object `sub` at path
`q`. -/
inductive FSAt : String → FS → Nat → String → FS → Prop where
  | here (p : String) (fs : FS) : FSAt p fs 0 p fs
  | step {p q : String} {r : Bool} {es : List (String × Bool × FS)} {k : Nat}
      {sub sub0 : FS} (nm : String) (ok : Bool) :
      (nm, ok, sub0) ∈ es → FSAt (p ++ "/" ++ nm) sub0 k q sub →
      FSAt p (FS.dir r es) (k + 1) q sub

/-- All per-node facts `build_node` guarantees for the output node `c` built
from the filesystem object `sub` at depth `d`. -/
def node_shape (max_depth : Option Nat) (d : Nat) (sub : FS) (c : FileNode) :
    Prop :=
  c.is_dir = is_dir_fs sub ∧
  (∃ b, c.has_more = some b) ∧
  (c.is_dir = false → c.children = none ∧ c.has_more = some false) ∧
  (∀ m, max_depth = some m → d ≥ m → c.is_dir = true →
      c.children = none ∧ c.has_more = some (dir_has_children sub)) ∧
  (c.is_dir = true → (max_depth = none ∨ ∃ m, max_depth = some m ∧ d < m) →
      (∃ cs, c.children = some cs) ∧ c.has_more = some false) ∧
  (∀ cs, c.children = some cs → List.Pairwise node_le cs)

/-! ### Concrete filesystems and trees used by witnesses and counterexamples -/

/-- A root directory containing one subdirectory `a`, which contains one
file `b`. -/
def fsAB : FS := FS.dir true [("a", true, FS.dir true [("b", true, FS.file)])]

/-- The node for `a` when the build is truncated at depth 1. -/
def nodeA_trunc : FileNode := FileNode.mk "a" "r/a" true none (some true)

/-- The tree `read_directory "r" fsAB (some 1)` produces. -/
def rootAB_L1 : FileNode :=
  FileNode.mk "r" "r" true (some [nodeA_trunc]) (some false)

/-- The leaf for `b` in the fully expanded tree of `fsAB`. -/
def nodeB_leaf : FileNode := FileNode.mk "b" "r/a/b" false none (some false)

/-- The node for `a` in the fully expanded tree of `fsAB`. -/
def nodeA_full : FileNode :=
  FileNode.mk "a" "r/a" true (some [nodeB_leaf]) (some false)

/-- The tree `read_directory "r" fsAB none` produces. -/
def rootAB_full : FileNode :=
  FileNode.mk "r" "r" true (some [nodeA_full]) (some false)

/-- A root directory whose entries arrive unsorted: a file `b` before a
directory `A`. -/
def fsSort : FS :=
  FS.dir true [("b", true, FS.file), ("A", true, FS.dir true [])]

/-- The node for the empty directory `A` of `fsSort`. -/
def nodeSortA : FileNode := FileNode.mk "A" "r/A" true (some []) (some false)

/-- The leaf for the file `b` of `fsSort`. -/
def nodeSortB : FileNode := FileNode.mk "b" "r/b" false none (some false)

/-- The tree `read_directory "r" fsSort none` produces: the directory `A`
sorted in front of the file `b`. -/
def rootSort : FileNode :=
  FileNode.mk "r" "r" true (some [nodeSortA, nodeSortB]) (some false)

/-- A root that is a symbolic link whose target is a readable non-empty
directory. -/
def fsLink : FS := FS.symlink (some (FS.dir true [("x", true, FS.file)]))

/-- The childless leaf `read_directory "r" fsLink _` produces. -/
def linkLeaf : FileNode := FileNode.mk "r" "r" false none (some false)

/-! ### Basic lemmas -/

/-- `build_node` on a directory has exactly the shape of the source: depth check
against `max_depth`, then either the truncated node with the
`dir_has_children` probe, or the node whose children are the result of
`read_children` at `depth + 1` (which never fails). -/
theorem build_node_dir_eq (p : String) (readable : Bool)
    (es : List (String × Bool × FS)) (depth : Nat) (max_depth : Option Nat) :
    build_node p true (FS.dir readable es) depth max_depth =
      match max_depth with
      | some mx =>
        if depth ≥ mx then
          Except.ok (FileNode.mk (file_name p) p true none
            (some (dir_has_children (FS.dir readable es))))
        else
          match read_children p (FS.dir readable es) (depth + 1) max_depth with
          | Except.ok children =>
              Except.ok (FileNode.mk (file_name p) p true (some children)
                (some false))
          | Except.error e => Except.error e
      | none =>
        match read_children p (FS.dir readable es) (depth + 1) max_depth with
        | Except.ok children =>
            Except.ok (FileNode.mk (file_name p) p true (some children)
              (some false))
        | Except.error e => Except.error e := by
  cases readable <;> cases max_depth <;>
    simp [build_node, read_children, read_dir_entries, resolve]

theorem chars_cmp_gt_to_lt {x y : List Char} (h : chars_cmp x y = Ordering.gt) :
    chars_cmp y x = Ordering.lt := by
  induction x generalizing y with
  | nil => cases y <;> simp [chars_cmp] at h
  | cons a as ih =>
      cases y with
      | nil => simp [chars_cmp]
      | cons b bs =>
          by_cases hab : a < b
          · simp [chars_cmp, hab] at h
          · by_cases hba : b < a
            · simp [chars_cmp, hba, asymm hba]
            · have hrec : chars_cmp as bs = Ordering.gt := by
                simpa [chars_cmp, hab, hba] using h
              simpa [chars_cmp, hab, hba] using ih hrec

theorem chars_cmp_le_trans {x y z : List Char}
    (hxy : chars_cmp x y ≠ Ordering.gt) (hyz : chars_cmp y z ≠ Ordering.gt) :
    chars_cmp x z ≠ Ordering.gt := by
  induction x generalizing y z with
  | nil => cases z <;> simp [chars_cmp]
  | cons a as ih =>
      cases y with
      | nil => simp [chars_cmp] at hxy
      | cons b bs =>
          cases z with
          | nil => simp [chars_cmp] at hyz
          | cons c cs =>
              by_cases hab : a < b
              · by_cases hbc : b < c
                · have hac : a < c := lt_trans hab hbc
                  simp [chars_cmp, hac]
                · by_cases hcb : c < b
                  · simp [chars_cmp, hbc, hcb] at hyz
                  · have hbc2 : b = c := le_antisymm (not_lt.mp hcb) (not_lt.mp hbc)
                    subst hbc2
                    simp [chars_cmp, hab]
              · by_cases hba : b < a
                · simp [chars_cmp, hab, hba] at hxy
                · have hab2 : a = b := le_antisymm (not_lt.mp hba) (not_lt.mp hab)
                  subst hab2
                  by_cases hbc : a < c
                  · simp [chars_cmp, hbc]
                  · by_cases hcb : c < a
                    · simp [chars_cmp, hbc, hcb] at hyz
                    · have hac2 : a = c := le_antisymm (not_lt.mp hcb) (not_lt.mp hbc)
                      subst hac2
                      have h1 : chars_cmp as bs ≠ Ordering.gt := by
                        simpa [chars_cmp, hab] using hxy
                      have h2 : chars_cmp bs cs ≠ Ordering.gt := by
                        simpa [chars_cmp, hbc] using hyz
                      simpa [chars_cmp, hbc] using ih h1 h2

theorem str_cmp_le_trans {x y z : String}
    (hxy : str_cmp x y ≠ Ordering.gt) (hyz : str_cmp y z ≠ Ordering.gt) :
    str_cmp x z ≠ Ordering.gt :=
  chars_cmp_le_trans hxy hyz

theorem str_cmp_le_total (x y : String) :
    str_cmp x y ≠ Ordering.gt ∨ str_cmp y x ≠ Ordering.gt := by
  by_cases h : str_cmp x y = Ordering.gt
  · right
    have := chars_cmp_gt_to_lt h
    unfold str_cmp
    rw [this]
    simp
  · left
    exact h

theorem node_le_trans : ∀ a b c : FileNode,
    node_le a b → node_le b c → node_le a c := by
  intro a b c hab hbc
  unfold node_le cmp_nodes at *
  cases ha : a.is_dir <;> cases hb : b.is_dir <;> cases hc : c.is_dir <;>
    simp only [ha, hb, hc] at hab hbc ⊢ <;>
    first
      | exact str_cmp_le_trans hab hbc
      | simp_all

theorem node_le_total : ∀ a b : FileNode, node_le a b ∨ node_le b a := by
  intro a b
  unfold node_le cmp_nodes
  cases ha : a.is_dir <;> cases hb : b.is_dir <;>
    simp only [ha, hb] <;>
    first
      | exact str_cmp_le_total _ _
      | simp_all

theorem pairwise_insertionSort (l : List FileNode) :
    List.Pairwise node_le (List.insertionSort node_le l) :=
  @List.sorted_insertionSort FileNode node_le _ ⟨node_le_total⟩
    ⟨node_le_trans⟩ l

theorem build_items_mem {dir : String} {es : List (String × Bool × FS)}
    {depth : Nat} {max_depth : Option Nat} {c : FileNode} :
    c ∈ build_items dir es depth max_depth ↔
      ∃ e ∈ es,
        build_node (dir ++ "/" ++ e.1) e.2.1 e.2.2 depth max_depth =
          Except.ok c := by
  induction es with
  | nil => simp [build_items]
  | cons e rest ih =>
      obtain ⟨n, ok, sub⟩ := e
      simp only [build_items]
      cases hb : build_node (dir ++ "/" ++ n) ok sub depth max_depth with
      | ok node =>
          simp only [List.mem_cons, ih]
          constructor
          · rintro (rfl | ⟨e1, hm, hb1⟩)
            · exact ⟨(n, ok, sub), Or.inl rfl, hb⟩
            · exact ⟨e1, Or.inr hm, hb1⟩
          · rintro ⟨e1, rfl | hm2, hb1⟩
            · rw [hb] at hb1
              exact Or.inl (Except.ok.inj hb1).symm
            · exact Or.inr ⟨e1, hm2, hb1⟩
      | error e0 =>
          rw [ih]
          simp only [List.mem_cons]
          constructor
          · rintro ⟨e1, hm, hb1⟩
            exact ⟨e1, Or.inr hm, hb1⟩
          · rintro ⟨e1, rfl | hm2, hb1⟩
            · rw [hb] at hb1
              cases hb1
            · exact ⟨e1, hm2, hb1⟩

theorem build_node_ok_total (p : String) (fs : FS) (d : Nat)
    (maxD : Option Nat) : ∃ c, build_node p true fs d maxD = Except.ok c := by
  cases fs with
  | file => exact ⟨_, rfl⟩
  | symlink => exact ⟨_, rfl⟩
  | dir r es =>
      cases maxD with
      | none => exact ⟨_, rfl⟩
      | some mx =>
          by_cases hd : d ≥ mx
          · exact ⟨FileNode.mk (file_name p) p true none
              (some (dir_has_children (FS.dir r es))), by simp [build_node, hd]⟩
          · exact ⟨FileNode.mk (file_name p) p true
              (some (if r then
                List.insertionSort node_le (build_items p es (d + 1) (some mx))
              else [])) (some false), by simp [build_node, hd]⟩

theorem build_node_error {p : String} {ok : Bool} {fs : FS} {d : Nat}
    {maxD : Option Nat} {e : IOError}
    (h : build_node p ok fs d maxD = Except.error e) :
    ok = false ∧ e = IOError.otherError := by
  cases ok
  · refine ⟨rfl, ?_⟩
    cases fs <;> simp [build_node] at h <;> exact h.symm
  · obtain ⟨c, hc⟩ := build_node_ok_total p fs d maxD
    rw [hc] at h
    cases h

theorem build_node_fields {p : String} {ok : Bool} {fs : FS} {d : Nat}
    {maxD : Option Nat} {c : FileNode}
    (h : build_node p ok fs d maxD = Except.ok c) :
    c.path = p ∧ c.name = file_name p ∧ c.is_dir = is_dir_fs fs := by
  cases ok
  · cases fs <;> simp [build_node] at h
  · cases fs with
    | file => simp [build_node] at h; simp [← h, FileNode.path, FileNode.name,
        FileNode.is_dir, is_dir_fs]
    | symlink => simp [build_node] at h; simp [← h, FileNode.path,
        FileNode.name, FileNode.is_dir, is_dir_fs]
    | dir r es =>
        cases maxD with
        | none =>
            simp [build_node] at h
            simp [← h, FileNode.path, FileNode.name, FileNode.is_dir, is_dir_fs]
        | some mx =>
            by_cases hd : d ≥ mx <;> simp [build_node, hd] at h <;>
              simp [← h, FileNode.path, FileNode.name, FileNode.is_dir,
                is_dir_fs]

theorem build_node_shape {p : String} {ok : Bool} {fs : FS} {d : Nat}
    {maxD : Option Nat} {c : FileNode}
    (h : build_node p ok fs d maxD = Except.ok c) : node_shape maxD d fs c := by
  cases ok
  · cases fs <;> simp [build_node] at h
  · cases fs with
    | file =>
        simp [build_node] at h
        subst h
        refine ⟨rfl, ⟨false, rfl⟩, fun _ => ⟨rfl, rfl⟩, ?_, ?_, ?_⟩ <;>
          simp [FileNode.is_dir, FileNode.children, is_dir_fs]
    | symlink =>
        simp [build_node] at h
        subst h
        refine ⟨rfl, ⟨false, rfl⟩, fun _ => ⟨rfl, rfl⟩, ?_, ?_, ?_⟩ <;>
          simp [FileNode.is_dir, FileNode.children, is_dir_fs]
    | dir r es =>
        cases maxD with
        | none =>
            simp [build_node] at h
            subst h
            refine ⟨rfl, ⟨false, rfl⟩, ?_, ?_, ?_, ?_⟩
            · intro hfalse
              simp [FileNode.is_dir] at hfalse
            · intro m hm
              cases hm
            · intro _ _
              exact ⟨⟨_, rfl⟩, rfl⟩
            · intro cs hcs
              simp only [FileNode.children, Option.some.injEq] at hcs
              subst hcs
              cases r
              · simp
              · exact pairwise_insertionSort _
        | some mx =>
            by_cases hd : d ≥ mx
            · simp [build_node, hd] at h
              subst h
              refine ⟨rfl, ⟨dir_has_children (FS.dir r es), rfl⟩, ?_, ?_, ?_, ?_⟩
              · intro hfalse
                simp [FileNode.is_dir] at hfalse
              · intro m hm _ _
                exact ⟨rfl, rfl⟩
              · rintro _ (hnone | ⟨m, hm, hlt⟩)
                · cases hnone
                · cases hm
                  omega
              · intro cs hcs
                simp [FileNode.children] at hcs
            · simp [build_node, hd] at h
              subst h
              refine ⟨rfl, ⟨false, rfl⟩, ?_, ?_, ?_, ?_⟩
              · intro hfalse
                simp [FileNode.is_dir] at hfalse
              · intro m hm hge
                cases hm
                omega
              · intro _ _
                exact ⟨⟨_, rfl⟩, rfl⟩
              · intro cs hcs
                simp only [FileNode.children, Option.some.injEq] at hcs
                subst hcs
                cases r
                · simp
                · exact pairwise_insertionSort _

/-- Master lemma: every node `c` at depth `k` inside a tree built by
`build_node` corresponds to a filesystem object `sub` reached by following
`k` entries from the root object, `c` carries the path of that object, `c`
satisfies all per-node facts of `build_node` at depth `d + k`, and (below
the root of the build) its depth is bounded by a present depth limit. -/
theorem build_node_at :
    ∀ {k : Nat} {c n : FileNode}, InTree k c n →
    ∀ (p : String) (ok : Bool) (fs : FS) (d : Nat) (maxD : Option Nat),
      build_node p ok fs d maxD = Except.ok n →
      ∃ q sub, FSAt p fs k q sub ∧ c.path = q ∧
        node_shape maxD (d + k) sub c ∧
        (∀ m, maxD = some m → 0 < k → d + k ≤ m) := by
  intro k c n hIn
  induction hIn with
  | here n =>
      intro p ok fs d maxD h
      refine ⟨p, fs, FSAt.here p fs, (build_node_fields h).1, ?_, ?_⟩
      · simpa using build_node_shape h
      · intro m _ h0
        omega
  | there hcs hmem hIn2 ih =>
      intro p ok fs d maxD h
      rename_i k c c0 n cs
      cases ok
      · cases fs <;> simp [build_node] at h
      · cases fs with
        | file =>
            simp [build_node] at h
            subst h
            simp [FileNode.children] at hcs
        | symlink =>
            simp [build_node] at h
            subst h
            simp [FileNode.children] at hcs
        | dir r es =>
            have hexp : cs = (if r then
                List.insertionSort node_le (build_items p es (d + 1) maxD)
              else []) ∧ (maxD = none ∨ ∃ m, maxD = some m ∧ d < m) := by
              cases maxD with
              | none =>
                  simp [build_node] at h
                  subst h
                  simp only [FileNode.children, Option.some.injEq] at hcs
                  exact ⟨hcs.symm, Or.inl rfl⟩
              | some mx =>
                  by_cases hd : d ≥ mx
                  · simp [build_node, hd] at h
                    subst h
                    simp [FileNode.children] at hcs
                  · simp [build_node, hd] at h
                    subst h
                    simp only [FileNode.children, Option.some.injEq] at hcs
                    exact ⟨hcs.symm, Or.inr ⟨mx, rfl, by omega⟩⟩
            obtain ⟨hcseq, hdepth⟩ := hexp
            subst hcseq
            cases r with
            | false => simp at hmem
            | true =>
                rw [if_pos rfl] at hmem
                rw [List.mem_insertionSort] at hmem
                rw [build_items_mem] at hmem
                obtain ⟨e, he, hbuild⟩ := hmem
                obtain ⟨q, sub, hfsat, hpath, hshape, hbound⟩ :=
                  ih (p ++ "/" ++ e.1) e.2.1 e.2.2 (d + 1) maxD hbuild
                refine ⟨q, sub, ?_, hpath, ?_, ?_⟩
                · exact FSAt.step e.1 e.2.1
                    (by simpa using he) hfsat
                · have harith : d + 1 + k = d + (k + 1) := by omega
                  rw [harith] at hshape
                  exact hshape
                · intro m hm _
                  rcases hdepth with hnone | ⟨m2, hm2, hlt⟩
                  · rw [hnone] at hm
                    cases hm
                  · have hm3 : m = m2 := by
                      rw [hm2] at hm
                      exact (Option.some.inj hm).symm
                    subst hm3
                    cases k with
                    | zero => omega
                    | succ k2 =>
                        have := hbound m hm2 (by omega)
                        omega

/-! ### Claim theorems -/

/-- C2: for every root and depth limit `L` passed to `read_directory`, every
node of the result tree sits at depth at most `L` (so in particular every
expanded node does), and every directory node at exactly depth `L` has
`children = none` and `has_more` equal to the `dir_has_children` probe of
the corresponding filesystem directory (true exactly when the directory can
be opened and yields at least one entry). -/
theorem readDirectory_depth_limit (path : String) (fs : FS) (L : Nat)
    (n : FileNode) (h : read_directory path (some fs) (some L) = Except.ok n) :
    ∀ k c, InTree k c n →
      k ≤ L ∧
      (k = L → c.is_dir = true →
        c.children = none ∧
        ∃ q sub, FSAt path fs L q sub ∧ c.path = q ∧
          c.has_more = some (dir_has_children sub)) := by
  intro k c hIn
  obtain ⟨q, sub, hfsat, hpath, hshape, hbound⟩ :=
    build_node_at hIn path true fs 0 (some L) h
  obtain ⟨hdir_eq, hhm, hnotdir, htrunc, hexp, hsort⟩ := hshape
  simp only [Nat.zero_add] at htrunc hexp hbound
  constructor
  · cases hk : k with
    | zero => omega
    | succ k2 =>
        have := hbound L rfl (by omega)
        omega
  · intro hkL hdir
    obtain ⟨hcn, hpm⟩ := htrunc L rfl (by omega) hdir
    exact ⟨hcn, q, sub, hkL ▸ hfsat, hpath, hpm⟩

theorem readDirectory_depth_limit_witness :
    read_directory "r" (some fsAB) (some 1) = Except.ok rootAB_L1 ∧
    InTree 1 nodeA_trunc rootAB_L1 ∧
    (1 ≤ 1 ∧
      (1 = 1 → nodeA_trunc.is_dir = true →
        nodeA_trunc.children = none ∧
        ∃ q sub, FSAt "r" fsAB 1 q sub ∧ nodeA_trunc.path = q ∧
          nodeA_trunc.has_more = some (dir_has_children sub))) := by
  have hIn : InTree 1 nodeA_trunc rootAB_L1 :=
    @InTree.there 0 nodeA_trunc nodeA_trunc rootAB_L1 [nodeA_trunc] rfl
      (List.Mem.head _) (InTree.here _)
  exact ⟨rfl, hIn,
    readDirectory_depth_limit "r" fsAB 1 rootAB_L1 rfl 1 nodeA_trunc hIn⟩

/-- C3: an error surfaced by `read_directory` or `read_directory_fast` can
only be the crafted `NotFound` error for a nonexistent root: every I/O
failure below an existing root (unreadable directory, failed per-entry
metadata) is absorbed as an empty children list or a skipped entry and
never propagates. -/
theorem only_notFound_surfaced (path : String) (root : Option FS)
    (maxD : Option Nat) (e : IOError)
    (h : read_directory path root maxD = Except.error e ∨
         read_directory_fast path root maxD = Except.error e) :
    root = none ∧ e = IOError.notFound ("Path not found: " ++ path) := by
  cases root with
  | none =>
      refine ⟨rfl, ?_⟩
      rcases h with h | h
      · simp [read_directory] at h
        exact h.symm
      · simp [read_directory_fast] at h
        exact h.symm
  | some fs =>
      exfalso
      rcases h with h | h
      · obtain ⟨c, hc⟩ := build_node_ok_total path fs 0 maxD
        have h2 : build_node path true fs 0 maxD = Except.error e := h
        rw [hc] at h2
        cases h2
      · simp [read_directory_fast] at h

theorem only_notFound_surfaced_witness :
    (none : Option FS) = none ∧
    IOError.notFound ("Path not found: " ++ "x") =
      IOError.notFound ("Path not found: " ++ "x") :=
  only_notFound_surfaced "x" none none
    (IOError.notFound ("Path not found: " ++ "x")) (Or.inl rfl)

/-- C4: per-node invariants of every tree `read_directory` returns:
`has_more` is present on every node; `children` is non-null exactly on
directories expanded below the depth limit; `has_more` is `false` on
non-directories and on expanded nodes; `has_more = true` happens only on a
directory truncated at the depth limit whose filesystem directory is
readable and non-empty; and a truncated directory node carries exactly the
`dir_has_children` probe of its filesystem directory. -/
theorem fileNode_invariants (path : String) (fs : FS) (maxD : Option Nat)
    (n : FileNode) (h : read_directory path (some fs) maxD = Except.ok n) :
    ∀ k c, InTree k c n →
      (∃ b, c.has_more = some b) ∧
      (c.children.isSome = true ↔
        (c.is_dir = true ∧ ∀ m, maxD = some m → k < m)) ∧
      (c.is_dir = false → c.has_more = some false) ∧
      (c.children.isSome = true → c.has_more = some false) ∧
      (c.has_more = some true → c.children = none ∧ c.is_dir = true ∧
        (∃ m, maxD = some m ∧ k = m) ∧
        (∃ q es, FSAt path fs k q (FS.dir true es) ∧ c.path = q ∧ es ≠ [])) ∧
      (c.is_dir = true → c.children = none →
        ∃ q sub, FSAt path fs k q sub ∧ c.path = q ∧ is_dir_fs sub = true ∧
          c.has_more = some (dir_has_children sub)) := by
  intro k c hIn
  obtain ⟨q, sub, hfsat, hpath, hshape, hbound⟩ :=
    build_node_at hIn path true fs 0 maxD h
  obtain ⟨hdir_eq, hhm, hnotdir, htrunc, hexp, hsort⟩ := hshape
  simp only [Nat.zero_add] at htrunc hexp hbound
  have hsplit : (c.is_dir = true ∧ ∀ m, maxD = some m → k < m) →
      (∃ cs, c.children = some cs) ∧ c.has_more = some false := by
    rintro ⟨hdir, hm⟩
    have hor : maxD = none ∨ ∃ m, maxD = some m ∧ k < m := by
      cases maxD with
      | none => exact Or.inl rfl
      | some m => exact Or.inr ⟨m, rfl, hm m rfl⟩
    exact hexp hdir hor
  have hconv : c.children.isSome = true →
      (c.is_dir = true ∧ ∀ m, maxD = some m → k < m) := by
    intro hcsome
    have hdir : c.is_dir = true := by
      cases hd : c.is_dir
      · obtain ⟨hcn, _⟩ := hnotdir hd
        rw [hcn] at hcsome
        simp at hcsome
      · rfl
    refine ⟨hdir, ?_⟩
    intro m hm
    by_contra hkm
    obtain ⟨hcn, _⟩ := htrunc m hm (by omega) hdir
    rw [hcn] at hcsome
    simp at hcsome
  refine ⟨hhm, ?_, fun hd => (hnotdir hd).2, ?_, ?_, ?_⟩
  · constructor
    · exact hconv
    · intro hh
      obtain ⟨⟨cs, hcs⟩, _⟩ := hsplit hh
      simp [hcs]
  · intro hcsome
    exact (hsplit (hconv hcsome)).2
  · intro htrue
    have hdir : c.is_dir = true := by
      cases hd : c.is_dir
      · have hf := (hnotdir hd).2
        rw [hf] at htrue
        simp at htrue
      · rfl
    have hnone : c.children = none := by
      cases hc2 : c.children with
      | none => rfl
      | some cs =>
          have hcsome : c.children.isSome = true := by simp [hc2]
          have hf := (hsplit (hconv hcsome)).2
          rw [hf] at htrue
          simp at htrue
    cases maxD with
    | none =>
        obtain ⟨⟨cs, hcs⟩, _⟩ := hexp hdir (Or.inl rfl)
        rw [hcs] at hnone
        cases hnone
    | some m =>
        by_cases hkm : k < m
        · obtain ⟨⟨cs, hcs⟩, _⟩ := hexp hdir (Or.inr ⟨m, rfl, hkm⟩)
          rw [hcs] at hnone
          cases hnone
        · obtain ⟨_, hprobe⟩ := htrunc m rfl (by omega) hdir
          have hkm2 : k ≤ m := by
            cases hk0 : k with
            | zero => omega
            | succ k2 =>
                have := hbound m rfl (by omega)
                omega
          have hkeq : k = m := by omega
          rw [hprobe] at htrue
          have hprobe_true : dir_has_children sub = true :=
            Option.some.inj htrue
          rcases sub with _ | t | ⟨r, es⟩
          · rw [hdir_eq] at hdir
            simp [is_dir_fs] at hdir
          · rw [hdir_eq] at hdir
            simp [is_dir_fs] at hdir
          · cases r with
            | false =>
                simp [dir_has_children, read_dir_entries, resolve] at hprobe_true
            | true =>
                have hne : es ≠ [] := by
                  simp [dir_has_children, read_dir_entries, resolve] at hprobe_true
                  intro hemp
                  rw [hemp] at hprobe_true
                  simp at hprobe_true
                exact ⟨hnone, hdir, ⟨m, rfl, hkeq⟩, ⟨q, es, hfsat, hpath, hne⟩⟩
  · intro hdir hnone
    cases maxD with
    | none =>
        obtain ⟨⟨cs, hcs⟩, _⟩ := hexp hdir (Or.inl rfl)
        rw [hcs] at hnone
        cases hnone
    | some m =>
        by_cases hkm : k < m
        · obtain ⟨⟨cs, hcs⟩, _⟩ := hexp hdir (Or.inr ⟨m, rfl, hkm⟩)
          rw [hcs] at hnone
          cases hnone
        · obtain ⟨_, hprobe⟩ := htrunc m rfl (by omega) hdir
          have hsubdir : is_dir_fs sub = true := by
            rw [← hdir_eq]
            exact hdir
          exact ⟨q, sub, hfsat, hpath, hsubdir, hprobe⟩

theorem fileNode_invariants_witness :
    read_directory "r" (some fsAB) (some 1) = Except.ok rootAB_L1 ∧
    InTree 1 nodeA_trunc rootAB_L1 ∧
    ((∃ b, nodeA_trunc.has_more = some b) ∧
      (nodeA_trunc.children.isSome = true ↔
        (nodeA_trunc.is_dir = true ∧
          ∀ m, (some 1 : Option Nat) = some m → 1 < m)) ∧
      (nodeA_trunc.is_dir = false → nodeA_trunc.has_more = some false) ∧
      (nodeA_trunc.children.isSome = true →
        nodeA_trunc.has_more = some false) ∧
      (nodeA_trunc.has_more = some true →
        nodeA_trunc.children = none ∧ nodeA_trunc.is_dir = true ∧
        (∃ m, (some 1 : Option Nat) = some m ∧ 1 = m) ∧
        (∃ q es, FSAt "r" fsAB 1 q (FS.dir true es) ∧
          nodeA_trunc.path = q ∧ es ≠ [])) ∧
      (nodeA_trunc.is_dir = true → nodeA_trunc.children = none →
        ∃ q sub, FSAt "r" fsAB 1 q sub ∧ nodeA_trunc.path = q ∧
          is_dir_fs sub = true ∧
          nodeA_trunc.has_more = some (dir_has_children sub))) := by
  have hIn : InTree 1 nodeA_trunc rootAB_L1 :=
    @InTree.there 0 nodeA_trunc nodeA_trunc rootAB_L1 [nodeA_trunc] rfl
      (List.Mem.head _) (InTree.here _)
  exact ⟨rfl, hIn,
    fileNode_invariants "r" fsAB (some 1) rootAB_L1 rfl 1 nodeA_trunc hIn⟩

/-- C5: in every tree `read_directory` returns, every children list is
sorted: directories precede non-directories, and within a group of equal
directory-ness the lower-cased names compare non-decreasing under the
lexicographic string comparison. -/
theorem children_sorted (path : String) (fs : FS) (maxD : Option Nat)
    (n : FileNode) (h : read_directory path (some fs) maxD = Except.ok n) :
    ∀ k c cs, InTree k c n → c.children = some cs →
      List.Pairwise (fun a b =>
        (b.is_dir = true → a.is_dir = true) ∧
        (a.is_dir = b.is_dir →
          str_cmp (lower_str a.name) (lower_str b.name) ≠ Ordering.gt)) cs := by
  intro k c cs hIn hcs
  obtain ⟨q, sub, hfsat, hpath, hshape, hbound⟩ :=
    build_node_at hIn path true fs 0 maxD h
  have hp := hshape.2.2.2.2.2 cs hcs
  refine hp.imp ?_
  intro a b hab
  unfold node_le cmp_nodes at hab
  constructor
  · intro hbd
    cases had : a.is_dir
    · rw [had, hbd] at hab
      simp at hab
    · rfl
  · intro heq
    cases had : a.is_dir <;> rw [had] at heq hab <;> rw [← heq] at hab <;>
      simpa using hab

theorem children_sorted_witness :
    read_directory "r" (some fsSort) none = Except.ok rootSort ∧
    rootSort.children = some [nodeSortA, nodeSortB] ∧
    List.Pairwise (fun a b =>
      (b.is_dir = true → a.is_dir = true) ∧
      (a.is_dir = b.is_dir →
        str_cmp (lower_str a.name) (lower_str b.name) ≠ Ordering.gt))
      [nodeSortA, nodeSortB] :=
  ⟨rfl, rfl,
    children_sorted "r" fsSort none rootSort rfl 0 rootSort
      [nodeSortA, nodeSortB] (InTree.here _) rfl⟩

/-- C8: calling either entry point on a nonexistent root returns exactly the
`NotFound` error whose message carries the attempted path, and no partial
result (the functions return an error, not a tree or string). -/
theorem root_not_found_error (path : String) (maxD : Option Nat) :
    read_directory path none maxD =
      Except.error (IOError.notFound ("Path not found: " ++ path)) ∧
    read_directory_fast path none maxD =
      Except.error (IOError.notFound ("Path not found: " ++ path)) :=
  ⟨rfl, rfl⟩

/-- C9: a directory that cannot be opened for listing probes as
`dir_has_children = false`; when truncated at the depth limit it therefore
carries `has_more = some false`, making it indistinguishable from a
genuinely empty readable directory (the builds coincide). -/
theorem unreadable_truncated_dir (p : String) (es : List (String × Bool × FS))
    (d m : Nat) (hd : d ≥ m) :
    dir_has_children (FS.dir false es) = false ∧
    build_node p true (FS.dir false es) d (some m) =
      Except.ok (FileNode.mk (file_name p) p true none (some false)) ∧
    build_node p true (FS.dir false es) d (some m) =
      build_node p true (FS.dir true []) d (some m) := by
  refine ⟨rfl, ?_, ?_⟩
  · simp [build_node, hd, dir_has_children, read_dir_entries, resolve]
  · simp [build_node, hd, dir_has_children, read_dir_entries, resolve]

theorem unreadable_truncated_dir_witness :
    (0 ≥ 0) ∧
    (dir_has_children (FS.dir false [("x", true, FS.file)]) = false ∧
      build_node "u" true (FS.dir false [("x", true, FS.file)]) 0 (some 0) =
        Except.ok (FileNode.mk (file_name "u") "u" true none (some false)) ∧
      build_node "u" true (FS.dir false [("x", true, FS.file)]) 0 (some 0) =
        build_node "u" true (FS.dir true []) 0 (some 0)) :=
  ⟨Nat.le_refl 0,
    unreadable_truncated_dir "u" [("x", true, FS.file)] 0 0 (Nat.le_refl 0)⟩

/-! ### Flat-collector lemmas -/

theorem collect_spec_entries_mem (p : String) (es : List (String × Bool × FS))
    (depth : Nat) (maxD : Option Nat) (q : String) (k : FT) :
    (q, k) ∈ collect_spec_entries p es depth maxD ↔
      ((q, k) ∈ emit_entries p es ∨
        ∃ f ∈ push_frames p es depth maxD,
          (q, k) ∈ collect_spec f.1 f.2.2 f.2.1 maxD) := by
  induction es with
  | nil => simp [collect_spec_entries, emit_entries, push_frames]
  | cons e rest ih =>
      obtain ⟨nm, ok0, sub⟩ := e
      cases ok0 with
      | false =>
          simp only [collect_spec_entries, emit_entries, push_frames,
            List.filterMap_cons] at *
          simpa using ih
      | true =>
          by_cases hcond : (map_file_type sub = FT.Directory ∧
              depth_permits depth maxD = true)
          · simp only [collect_spec_entries, emit_entries, push_frames,
              List.filterMap_cons] at *
            simp only [hcond.1, hcond.2, and_self, if_true, if_pos rfl,
              List.mem_append, List.mem_cons, ih, exists_eq_or_imp]
            tauto
          · simp only [collect_spec_entries, emit_entries, push_frames,
              List.filterMap_cons] at *
            simp only [hcond, and_false, true_and, if_false, if_true,
              List.mem_append, List.mem_cons, List.mem_singleton, ih]
            tauto

theorem collect_spec_dir_mem (p : String) (es : List (String × Bool × FS))
    (depth : Nat) (maxD : Option Nat) (q : String) (k : FT) :
    (q, k) ∈ collect_spec p (FS.dir true es) depth maxD ↔
      ((q, k) ∈ emit_entries p es ∨
        ∃ f ∈ push_frames p es depth maxD,
          (q, k) ∈ collect_spec f.1 f.2.2 f.2.1 maxD) := by
  rw [show collect_spec p (FS.dir true es) depth maxD =
    collect_spec_entries p es depth maxD from rfl]
  exact collect_spec_entries_mem p es depth maxD q k

theorem collect_spec_dead (dir : String) (depth : Nat) (maxD : Option Nat)
    (fs : FS) (hnotdir : ∀ es : List (String × Bool × FS),
      fs = FS.dir true es → False)
    (hnotlink : ∀ t : FS, fs = FS.symlink (some t) → False) :
    collect_spec dir fs depth maxD = [] := by
  cases fs with
  | dir r es =>
      cases r with
      | true => exact absurd rfl (hnotdir es)
      | false => rfl
  | file => rfl
  | symlink t =>
      cases t with
      | none => rfl
      | some t2 => exact absurd rfl (hnotlink t2)

/-- Loop invariant of `collect_paths`: a pair is in the final output exactly
when it is already in the accumulator or some frame still on the stack
eventually emits it. -/
theorem collect_go_mem (maxD : Option Nat) (st : List (String × Nat × FS))
    (out : List (String × FT)) (q : String) (k : FT) :
    (q, k) ∈ collect_go maxD st out ↔
      ((q, k) ∈ out ∨
        ∃ f ∈ st, (q, k) ∈ collect_spec f.1 f.2.2 f.2.1 maxD) := by
  induction st, out using collect_go.induct maxD with
  | case1 out => simp [collect_go]
  | case2 dir depth rest out es ih =>
      rw [show collect_go maxD ((dir, depth, FS.dir true es) :: rest) out =
            collect_go maxD ((push_frames dir es depth maxD).reverse ++ rest)
              (out ++ emit_entries dir es) from by
          simp [collect_go]]
      rw [ih]
      simp only [List.mem_append, List.mem_reverse, List.mem_cons,
        exists_eq_or_imp, collect_spec_dir_mem]
      constructor
      · rintro ((h1 | h2) | ⟨f, hf, hmem⟩)
        · exact Or.inl h1
        · exact Or.inr (Or.inl (Or.inl h2))
        · rcases hf with hf | hf
          · exact Or.inr (Or.inl (Or.inr ⟨f, hf, hmem⟩))
          · exact Or.inr (Or.inr ⟨f, hf, hmem⟩)
      · rintro (h1 | ((h2 | ⟨f, hf, hmem⟩) | ⟨f, hf, hmem⟩))
        · exact Or.inl (Or.inl h1)
        · exact Or.inl (Or.inr h2)
        · exact Or.inr ⟨f, Or.inl hf, hmem⟩
        · exact Or.inr ⟨f, Or.inr hf, hmem⟩
  | case3 dir depth rest out t ih =>
      rw [show collect_go maxD ((dir, depth, FS.symlink (some t)) :: rest) out =
            collect_go maxD ((dir, depth, t) :: rest) out from by
          simp [collect_go]]
      rw [ih]
      simp only [List.mem_cons, exists_eq_or_imp]
      exact Iff.rfl
  | case4 dir depth fs rest out hnotdir hnotlink ih =>
      rw [show collect_go maxD ((dir, depth, fs) :: rest) out =
            collect_go maxD rest out from by
          cases fs with
          | dir r es =>
              cases r with
              | true => exact absurd rfl (hnotdir es)
              | false => simp [collect_go]
          | file => simp [collect_go]
          | symlink t =>
              cases t with
              | none => simp [collect_go]
              | some t2 => exact absurd rfl (hnotlink t2)]
      rw [ih]
      constructor
      · rintro (h1 | ⟨f, hf, hmem⟩)
        · exact Or.inl h1
        · exact Or.inr ⟨f, List.mem_cons_of_mem _ hf, hmem⟩
      · rintro (h1 | ⟨f, hf, hmem⟩)
        · exact Or.inl h1
        · rcases List.mem_cons.mp hf with rfl | hf2
          · rw [collect_spec_dead dir depth maxD fs hnotdir hnotlink] at hmem
            cases hmem
          · exact Or.inr ⟨f, hf2, hmem⟩

/-- The flat list of `collect_paths` contains exactly the pairs of the
denotation `collect_spec` of the seed frame. -/
theorem collect_paths_mem (root : String) (fs : FS) (maxD : Option Nat)
    (q : String) (k : FT) :
    (q, k) ∈ collect_paths root fs maxD ↔
      (q, k) ∈ collect_spec root fs 0 maxD := by
  unfold collect_paths
  rw [collect_go_mem]
  simp

theorem tree_desc_list_mem (l : List FileNode) (q : String) :
    q ∈ tree_desc_list l ↔ ∃ c ∈ l, q = c.path ∨ q ∈ tree_desc_paths c := by
  induction l with
  | nil => simp [tree_desc_list]
  | cons c rest ih =>
      simp only [tree_desc_list, List.mem_append, List.mem_cons, ih,
        exists_eq_or_imp]

mutual

/-- The strict-descendant paths of a built tree are exactly
`fs_tree_paths` of the filesystem object the tree was built from. -/
theorem build_desc (p : String) (ok : Bool) (fs : FS) (d : Nat)
    (maxD : Option Nat) (n : FileNode)
    (h : build_node p ok fs d maxD = Except.ok n) (q : String) :
    q ∈ tree_desc_paths n ↔ q ∈ fs_tree_paths p fs d maxD := by
  cases ok
  · cases fs <;> simp [build_node] at h
  · cases fs with
    | file =>
        simp [build_node] at h
        subst h
        simp [tree_desc_paths, fs_tree_paths]
    | symlink =>
        simp [build_node] at h
        subst h
        simp [tree_desc_paths, fs_tree_paths]
    | dir r es =>
        cases maxD with
        | none =>
            simp [build_node] at h
            subst h
            cases r with
            | false => simp [tree_desc_paths, fs_tree_paths, tree_desc_list]
            | true =>
                rw [show tree_desc_paths (FileNode.mk (file_name p) p true
                      (some (if (true : Bool) then List.insertionSort node_le
                        (build_items p es (d + 1) none) else []))
                      (some false)) =
                    tree_desc_list (List.insertionSort node_le
                      (build_items p es (d + 1) none)) from rfl]
                rw [tree_desc_list_mem]
                simp only [List.mem_insertionSort]
                rw [build_desc_items p es (d + 1) none q]
                simp [fs_tree_paths, expand_ok]
        | some mx =>
            by_cases hd : d ≥ mx
            · simp [build_node, hd] at h
              subst h
              have hnlt : ¬ d < mx := by omega
              cases r <;> simp [tree_desc_paths, fs_tree_paths, expand_ok, hnlt]
            · simp [build_node, hd] at h
              subst h
              cases r with
              | false =>
                  simp [tree_desc_paths, fs_tree_paths, tree_desc_list]
              | true =>
                  rw [show tree_desc_paths (FileNode.mk (file_name p) p true
                        (some (if (true : Bool) then List.insertionSort node_le
                          (build_items p es (d + 1) (some mx)) else []))
                        (some false)) =
                      tree_desc_list (List.insertionSort node_le
                        (build_items p es (d + 1) (some mx))) from rfl]
                  rw [tree_desc_list_mem]
                  simp only [List.mem_insertionSort]
                  rw [build_desc_items p es (d + 1) (some mx) q]
                  have hlt : d < mx := by omega
                  simp [fs_tree_paths, expand_ok, hlt]

theorem build_desc_items (p : String) (es : List (String × Bool × FS))
    (d : Nat) (maxD : Option Nat) (q : String) :
    (∃ c ∈ build_items p es d maxD, q = c.path ∨ q ∈ tree_desc_paths c) ↔
      q ∈ fs_tree_paths_entries p es d maxD := by
  match es with
  | [] => simp [build_items, fs_tree_paths_entries]
  | (nm, ok0, sub) :: rest =>
      have ihrest := build_desc_items p rest d maxD q
      cases ok0 with
      | false =>
          have hb : build_node (p ++ "/" ++ nm) false sub d maxD =
              Except.error IOError.otherError := by
            cases sub <;> simp [build_node]
          rw [show build_items p ((nm, false, sub) :: rest) d maxD =
              build_items p rest d maxD from by
            simp [build_items, hb]]
          rw [show fs_tree_paths_entries p ((nm, false, sub) :: rest) d maxD =
              fs_tree_paths_entries p rest d maxD from by
            simp [fs_tree_paths_entries]]
          exact ihrest
      | true =>
          obtain ⟨c0, hc0⟩ := build_node_ok_total (p ++ "/" ++ nm) sub d maxD
          have hfield := build_node_fields hc0
          have ihsub := build_desc (p ++ "/" ++ nm) true sub d maxD c0 hc0 q
          rw [show build_items p ((nm, true, sub) :: rest) d maxD =
              c0 :: build_items p rest d maxD from by
            simp [build_items, hc0]]
          rw [show fs_tree_paths_entries p ((nm, true, sub) :: rest) d maxD =
              ((p ++ "/" ++ nm) ::
                fs_tree_paths (p ++ "/" ++ nm) sub d maxD) ++
                fs_tree_paths_entries p rest d maxD from by
            simp [fs_tree_paths_entries]]
          simp only [List.mem_cons, List.mem_append, exists_eq_or_imp,
            hfield.1, ihsub, ihrest]

end

theorem exists_pair_eq (q a : String) (b : FT) :
    (∃ k, (q, k) = (a, b)) ↔ q = a := by
  constructor
  · rintro ⟨k, hk⟩
    cases hk
    rfl
  · rintro rfl
    exact ⟨b, rfl⟩

theorem map_ft_dir_not_symlink (fs : FS)
    (h : map_file_type fs = FT.Directory) : is_symlink_fs fs = false := by
  cases fs with
  | dir r es => rfl
  | file => rfl
  | symlink t => simp [map_file_type, is_dir_fs, is_symlink_fs] at h

mutual

/-- With no depth limit, the paths `collect_spec` emits for a frame are
exactly the tree-reachable paths of the same filesystem object, at any
depths. -/
theorem collect_spec_none (p : String) (fs : FS) (d d2 : Nat) (q : String)
    (hnl : is_symlink_fs fs = false) :
    (∃ k, (q, k) ∈ collect_spec p fs d none) ↔
      q ∈ fs_tree_paths p fs d2 none := by
  cases fs with
  | file => simp [collect_spec, fs_tree_paths]
  | symlink t => simp [is_symlink_fs] at hnl
  | dir r es =>
      cases r with
      | false => simp [collect_spec, fs_tree_paths]
      | true =>
          rw [show collect_spec p (FS.dir true es) d none =
              collect_spec_entries p es d none from rfl]
          rw [show fs_tree_paths p (FS.dir true es) d2 none =
              fs_tree_paths_entries p es (d2 + 1) none from by
            simp [fs_tree_paths, expand_ok]]
          exact collect_spec_entries_none p es d (d2 + 1) q

theorem collect_spec_entries_none (p : String)
    (es : List (String × Bool × FS)) (d d2 : Nat) (q : String) :
    (∃ k, (q, k) ∈ collect_spec_entries p es d none) ↔
      q ∈ fs_tree_paths_entries p es d2 none := by
  match es with
  | [] => simp [collect_spec_entries, fs_tree_paths_entries]
  | (nm, ok0, sub) :: rest =>
      have ihrest := collect_spec_entries_none p rest d d2 q
      cases ok0 with
      | false =>
          simp only [collect_spec_entries, fs_tree_paths_entries, if_false,
            List.nil_append]
          exact ihrest
      | true =>
          by_cases hdir : map_file_type sub = FT.Directory
          · have ihsub := collect_spec_none (p ++ "/" ++ nm) sub (d + 1) d2 q
              (map_ft_dir_not_symlink sub hdir)
            simp only [collect_spec_entries, fs_tree_paths_entries,
              if_pos rfl, hdir, depth_permits, and_self, if_true,
              List.mem_append, List.mem_cons, exists_or, exists_pair_eq,
              ihsub, ihrest]
          · have hfs0 : fs_tree_paths (p ++ "/" ++ nm) sub d2 none = [] := by
              cases sub with
              | dir r2 es2 =>
                  cases r2 with
                  | true => exact absurd rfl hdir
                  | false => rfl
              | file => rfl
              | symlink => rfl
            simp only [collect_spec_entries, fs_tree_paths_entries,
              if_pos rfl, if_true, hdir, false_and, if_false,
              List.mem_append, List.mem_cons, List.not_mem_nil, exists_or,
              exists_pair_eq, ihrest, hfs0]
            tauto

end

mutual

/-- With a present depth limit `m`, the paths `collect_spec` emits for a
frame at depth `d ≤ m` are exactly the tree-reachable paths with depth
limit `m + 1`: the flat collector descends exactly one level further than
the tree builder. -/
theorem collect_spec_shift (p : String) (fs : FS) (d m : Nat) (hd : d ≤ m)
    (q : String) (hnl : is_symlink_fs fs = false) :
    (∃ k, (q, k) ∈ collect_spec p fs d (some m)) ↔
      q ∈ fs_tree_paths p fs d (some (m + 1)) := by
  cases fs with
  | file => simp [collect_spec, fs_tree_paths]
  | symlink t => simp [is_symlink_fs] at hnl
  | dir r es =>
      cases r with
      | false => simp [collect_spec, fs_tree_paths]
      | true =>
          rw [show collect_spec p (FS.dir true es) d (some m) =
              collect_spec_entries p es d (some m) from rfl]
          have hlt : d < m + 1 := by omega
          rw [show fs_tree_paths p (FS.dir true es) d (some (m + 1)) =
              fs_tree_paths_entries p es (d + 1) (some (m + 1)) from by
            simp [fs_tree_paths, expand_ok, hlt]]
          exact collect_spec_entries_shift p es d m hd q

theorem collect_spec_entries_shift (p : String)
    (es : List (String × Bool × FS)) (d m : Nat) (hd : d ≤ m) (q : String) :
    (∃ k, (q, k) ∈ collect_spec_entries p es d (some m)) ↔
      q ∈ fs_tree_paths_entries p es (d + 1) (some (m + 1)) := by
  match es with
  | [] => simp [collect_spec_entries, fs_tree_paths_entries]
  | (nm, ok0, sub) :: rest =>
      have ihrest := collect_spec_entries_shift p rest d m hd q
      cases ok0 with
      | false =>
          simp only [collect_spec_entries, fs_tree_paths_entries, if_false,
            List.nil_append]
          exact ihrest
      | true =>
          by_cases hdir : map_file_type sub = FT.Directory
          · by_cases hperm : d + 1 ≤ m
            · have ihsub := collect_spec_shift (p ++ "/" ++ nm) sub (d + 1) m
                hperm q (map_ft_dir_not_symlink sub hdir)
              have hpermit : depth_permits d (some m) = true := by
                simp [depth_permits]
                omega
              simp only [collect_spec_entries, fs_tree_paths_entries,
                if_pos rfl, hdir, hpermit, and_self, if_true,
                List.mem_append, List.mem_cons, exists_or, exists_pair_eq,
                ihsub, ihrest]
            · have hpermit : depth_permits d (some m) = false := by
                simp [depth_permits]
                omega
              have hfs0 : fs_tree_paths (p ++ "/" ++ nm) sub (d + 1)
                  (some (m + 1)) = [] := by
                cases sub with
                | dir r2 es2 =>
                    cases r2 with
                    | true =>
                        have hnlt : ¬ d + 1 < m + 1 := by omega
                        simp [fs_tree_paths, expand_ok, hnlt]
                    | false => rfl
                | file => rfl
                | symlink => rfl
              simp only [collect_spec_entries, fs_tree_paths_entries,
                if_pos rfl, if_true, hdir, hpermit, Bool.false_eq_true,
                true_and, and_false, if_false, List.mem_append,
                List.mem_cons, List.not_mem_nil, exists_or, exists_pair_eq,
                ihrest, hfs0]
              tauto
          · have hfs0 : fs_tree_paths (p ++ "/" ++ nm) sub (d + 1)
                (some (m + 1)) = [] := by
              cases sub with
              | dir r2 es2 =>
                  cases r2 with
                  | true => exact absurd rfl hdir
                  | false => rfl
              | file => rfl
              | symlink => rfl
            simp only [collect_spec_entries, fs_tree_paths_entries,
              if_pos rfl, if_true, hdir, false_and, if_false,
              List.mem_append, List.mem_cons, List.not_mem_nil, exists_or,
              exists_pair_eq, ihrest, hfs0]
            tauto

end

mutual

/-- Every pair a frame emits has a path that strictly extends the frame
path by a separator and a suffix. -/
theorem collect_spec_extends (p : String) (fs : FS) (d : Nat)
    (maxD : Option Nat) (q : String) (k : FT)
    (h : (q, k) ∈ collect_spec p fs d maxD) : ∃ s, q = p ++ "/" ++ s := by
  cases fs with
  | file => simp [collect_spec] at h
  | symlink t =>
      cases t with
      | none => simp [collect_spec] at h
      | some t2 => exact collect_spec_extends p t2 d maxD q k h
  | dir r es =>
      cases r with
      | false => simp [collect_spec] at h
      | true => exact collect_spec_entries_extends p es d maxD q k h

theorem collect_spec_entries_extends (p : String)
    (es : List (String × Bool × FS)) (d : Nat) (maxD : Option Nat)
    (q : String) (k : FT)
    (h : (q, k) ∈ collect_spec_entries p es d maxD) :
    ∃ s, q = p ++ "/" ++ s := by
  match es with
  | [] => simp [collect_spec_entries] at h
  | (nm, ok0, sub) :: rest =>
      rw [show collect_spec_entries p ((nm, ok0, sub) :: rest) d maxD =
          (if ok0 then
            (p ++ "/" ++ nm, map_file_type sub) ::
              (if map_file_type sub = FT.Directory ∧
                  depth_permits d maxD = true then
                collect_spec (p ++ "/" ++ nm) sub (d + 1) maxD
              else [])
           else []) ++ collect_spec_entries p rest d maxD from rfl] at h
      rcases List.mem_append.mp h with h1 | h2
      · cases ok0 with
        | false => simp at h1
        | true =>
            rw [if_pos rfl] at h1
            rcases List.mem_cons.mp h1 with heq | hnest
            · exact ⟨nm, by cases heq; rfl⟩
            · by_cases hcond : (map_file_type sub = FT.Directory ∧
                  depth_permits d maxD = true)
              · rw [if_pos hcond] at hnest
                obtain ⟨s, hs⟩ :=
                  collect_spec_extends (p ++ "/" ++ nm) sub (d + 1) maxD q k
                    hnest
                refine ⟨nm ++ "/" ++ s, ?_⟩
                rw [hs]
                simp [String.append_assoc]
              · rw [if_neg hcond] at hnest
                cases hnest
      · exact collect_spec_entries_extends p rest d maxD q k h2

end

/-! ### Remaining claim theorems -/

/-- C10: every pair `collect_paths` emits is for an entry discovered inside
some listed directory: its path extends the root path by a separator and a
non-trivial suffix, so the root path itself is never emitted. -/
theorem collect_paths_strict_descendants (root : String) (fs : FS)
    (maxD : Option Nat) (q : String) (k : FT)
    (h : (q, k) ∈ collect_paths root fs maxD) :
    (∃ s, q = root ++ "/" ++ s) ∧ q ≠ root := by
  have h2 := (collect_paths_mem root fs maxD q k).mp h
  obtain ⟨s, hs⟩ := collect_spec_extends root fs 0 maxD q k h2
  refine ⟨⟨s, hs⟩, ?_⟩
  intro heq
  rw [heq] at hs
  have hlen := congrArg String.length hs
  have hone : ("/" : String).length = 1 := rfl
  simp only [String.length_append, hone] at hlen
  omega

theorem collect_paths_strict_descendants_witness :
    ("r/a", FT.Directory) ∈ collect_paths "r" fsAB none ∧
    ((∃ s, "r/a" = "r" ++ "/" ++ s) ∧ "r/a" ≠ "r") := by
  have hmem : ("r/a", FT.Directory) ∈ collect_paths "r" fsAB none :=
    (collect_paths_mem "r" fsAB none "r/a" FT.Directory).mpr (by decide)
  exact ⟨hmem,
    collect_paths_strict_descendants "r" fsAB none "r/a" FT.Directory hmem⟩

/-- C6 counterexample: a root path that is itself a symbolic link to a
directory breaks the flat/tree equivalence: `fs::read_dir` follows the
final symlink, so `collect_paths` emits the target's entries, while the
tree builder (whose `symlink_metadata` classification never follows the
link) returns a childless leaf with no descendants. -/
theorem flat_tree_divergence_on_symlink_root :
    read_directory "r" (some fsLink) none = Except.ok linkLeaf ∧
    ("r/x", FT.File) ∈ collect_paths "r" fsLink none ∧
    "r/x" ∉ tree_desc_paths linkLeaf := by
  refine ⟨rfl, ?_, by decide⟩
  exact (collect_paths_mem "r" fsLink none "r/x" FT.File).mpr (by decide)

/-- C6 (amended): with no depth limit, for every root object that is not
itself a symbolic link, the set of paths emitted by `collect_paths` equals
the set of strict-descendant paths of the tree `read_directory` returns
for the same root; a symlink root is excluded because `fs::read_dir`
follows it while the tree builder does not. -/
theorem flat_matches_full_tree (path : String) (fs : FS) (n : FileNode)
    (hnl : is_symlink_fs fs = false)
    (h : read_directory path (some fs) none = Except.ok n) (q : String) :
    (∃ k, (q, k) ∈ collect_paths path fs none) ↔ q ∈ tree_desc_paths n := by
  have hb : build_node path true fs 0 none = Except.ok n := h
  constructor
  · rintro ⟨k, hk⟩
    have h2 := (collect_paths_mem path fs none q k).mp hk
    have h3 := (collect_spec_none path fs 0 0 q hnl).mp ⟨k, h2⟩
    exact (build_desc path true fs 0 none n hb q).mpr h3
  · intro hq
    have h3 := (build_desc path true fs 0 none n hb q).mp hq
    obtain ⟨k, hk⟩ := (collect_spec_none path fs 0 0 q hnl).mpr h3
    exact ⟨k, (collect_paths_mem path fs none q k).mpr hk⟩

theorem flat_matches_full_tree_witness :
    is_symlink_fs fsAB = false ∧
    read_directory "r" (some fsAB) none = Except.ok rootAB_full ∧
    ((∃ k, ("r/a/b", k) ∈ collect_paths "r" fsAB none) ↔
      "r/a/b" ∈ tree_desc_paths rootAB_full) :=
  ⟨rfl, rfl, flat_matches_full_tree "r" fsAB rootAB_full rfl rfl "r/a/b"⟩

/-- C1 counterexample: with `maxDepth = 1` on a root containing `a/b`, the
flat collector emits `r/a/b` while the tree builder truncates at `a` and
never reads the contents of `r/a`, so the two strategies do not read the
same set of directories. -/
theorem depth_policy_not_shared_counterexample :
    read_directory "r" (some fsAB) (some 1) = Except.ok rootAB_L1 ∧
    ("r/a/b", FT.File) ∈ collect_paths "r" fsAB (some 1) ∧
    "r/a/b" ∉ tree_desc_paths rootAB_L1 := by
  refine ⟨rfl, ?_, by decide⟩
  exact (collect_paths_mem "r" fsAB (some 1) "r/a/b" FT.File).mpr (by decide)

/-- C1 (amended): the two strategies do not share one depth policy.  The
flat collector reads the contents of a directory found at depth `d + 1` iff
`d + 1 ≤ maxDepth`, while the tree builder expands it iff `d + 1 <
maxDepth`; hence with limit `m` the flat collector emits exactly the paths
the tree builder reaches with limit `m + 1` — one level more than the tree
builder with the same limit (with `maxDepth` absent both recurse always,
see the C6 theorem; a root that is itself a symbolic link is excluded,
since `fs::read_dir` follows it while the tree builder does not). -/
theorem depth_policy_off_by_one (path : String) (fs : FS) (m : Nat)
    (n : FileNode) (hnl : is_symlink_fs fs = false)
    (h : read_directory path (some fs) (some (m + 1)) = Except.ok n)
    (q : String) :
    (∃ k, (q, k) ∈ collect_paths path fs (some m)) ↔
      q ∈ tree_desc_paths n := by
  have hb : build_node path true fs 0 (some (m + 1)) = Except.ok n := h
  constructor
  · rintro ⟨k, hk⟩
    have h2 := (collect_paths_mem path fs (some m) q k).mp hk
    have h3 :=
      (collect_spec_shift path fs 0 m (Nat.zero_le m) q hnl).mp ⟨k, h2⟩
    exact (build_desc path true fs 0 (some (m + 1)) n hb q).mpr h3
  · intro hq
    have h3 := (build_desc path true fs 0 (some (m + 1)) n hb q).mp hq
    obtain ⟨k, hk⟩ :=
      (collect_spec_shift path fs 0 m (Nat.zero_le m) q hnl).mpr h3
    exact ⟨k, (collect_paths_mem path fs (some m) q k).mpr hk⟩

theorem depth_policy_off_by_one_witness :
    is_symlink_fs fsAB = false ∧
    read_directory "r" (some fsAB) (some (0 + 1)) = Except.ok rootAB_L1 ∧
    ((∃ k, ("r/a", k) ∈ collect_paths "r" fsAB (some 0)) ↔
      "r/a" ∈ tree_desc_paths rootAB_L1) :=
  ⟨rfl, rfl, depth_policy_off_by_one "r" fsAB 0 rootAB_L1 rfl rfl "r/a"⟩

/-- C7 counterexample: a root path that is itself a symbolic link to a
directory IS followed by the flat collector — `fs::read_dir` resolves the
final symlink — so the link target's entries are emitted, even though the
tree builder returns a childless leaf for the very same root. -/
theorem symlink_root_followed_counterexample :
    build_node "r" true fsLink 0 none = Except.ok linkLeaf ∧
    linkLeaf.children = none ∧
    ("r/x", FT.File) ∈ collect_paths "r" fsLink none := by
  refine ⟨rfl, rfl, ?_⟩
  exact (collect_paths_mem "r" fsLink none "r/x" FT.File).mpr (by decide)

/-- C7 (amended): a symbolic link encountered as a directory entry is never
followed by either strategy, whatever its target: the symlink-aware
metadata classifies it `Link`, the tree builder builds it as a
non-directory leaf (`is_dir = false`, `children = none`) with no tree
descendants, and the flat collector announces it as exactly one
`(path, Link)` pair, pushing no work frame for it.  A root path that is
itself a symbolic link, however, is resolved by `fs::read_dir`, so both
`dir_has_children` and the flat collector's frame reads do follow it (see
the counterexample above). -/
theorem symlink_never_followed (p nm : String) (d : Nat) (maxD : Option Nat)
    (rest : List (String × Bool × FS)) (t : Option FS) :
    map_file_type (FS.symlink t) = FT.Link ∧
    build_node p true (FS.symlink t) d maxD =
      Except.ok (FileNode.mk (file_name p) p false none (some false)) ∧
    tree_desc_paths (FileNode.mk (file_name p) p false none (some false)) =
      [] ∧
    collect_spec_entries p ((nm, true, FS.symlink t) :: rest) d maxD =
      (p ++ "/" ++ nm, FT.Link) :: collect_spec_entries p rest d maxD ∧
    emit_entries p ((nm, true, FS.symlink t) :: rest) =
      (p ++ "/" ++ nm, FT.Link) :: emit_entries p rest ∧
    push_frames p ((nm, true, FS.symlink t) :: rest) d maxD =
      push_frames p rest d maxD := by
  refine ⟨rfl, rfl, rfl, ?_, ?_, ?_⟩
  · simp [collect_spec_entries, map_file_type, is_dir_fs, is_symlink_fs]
  · simp [emit_entries, map_file_type, is_dir_fs, is_symlink_fs]
  · simp [push_frames, map_file_type, is_dir_fs, is_symlink_fs]

end FolderSelector
